import Mathlib

/-!
Verification of the descriptor-synthesis pipeline of the MoviePilot plugins
`topanimestrm` and `videostrm`.

Python strings are modelled as `List Char`.  Percent decoding/encoding is
modelled at the byte level (exact for ASCII data; a multi-byte UTF-8 escape
sequence decodes to the individual byte-valued characters rather than one
code point).  Regular-expression operations from the source are modelled by
executable scanners that implement the leftmost-match semantics of the
concrete patterns used by the code; `.` is modelled as matching any character
and `$` as end of string (exact for newline-free inputs).
-/

namespace TopAnimeStrm

/-- The character class matched by Python's `str.strip` / `\s` (ASCII part). -/
def isPySpace (c : Char) : Bool := c ∈ [' ', '\t', '\n', '\r', '\x0b', '\x0c']

/-- The literal `.mp4`. -/
def mp4Ext : List Char := ['.', 'm', 'p', '4']

/-- The literal `?a=view`. -/
def qaViewMarker : List Char := ['?', 'a', '=', 'v', 'i', 'e', 'w']

/-- The literal `?d=mp4`. -/
def qdMp4 : List Char := ['?', 'd', '=', 'm', 'p', '4']

/-- The literal `.mp4?d=true`. -/
def mp4DTrue : List Char := ['.', 'm', 'p', '4', '?', 'd', '=', 't', 'r', 'u', 'e']

/-- The literal `?d=true`. -/
def dTrueQuery : List Char := ['?', 'd', '=', 't', 'r', 'u', 'e']

/-- The literal `[ANi]`. -/
def aniTag : List Char := ['[', 'A', 'N', 'i', ']']

/-- The literal `.strm`. -/
def strmExt : List Char := ['.', 's', 't', 'r', 'm']

/-- Python's `pat in s` substring test. -/
def isSubstring (pat : List Char) : List Char → Bool
  | [] => pat.isEmpty
  | c :: cs => pat.isPrefixOf (c :: cs) || isSubstring pat cs

/-- Python's `s.split(pat)[0]`: the part of `s` before the first occurrence of
`pat` (the whole string when `pat` does not occur). -/
def takeBeforeFirst (pat : List Char) : List Char → List Char
  | [] => []
  | c :: cs => if pat.isPrefixOf (c :: cs) then [] else c :: takeBeforeFirst pat cs

/-- Python's `s.split('/')[-1]`: the last `/`-separated segment. -/
def lastSegment (l : List Char) : List Char := (List.splitOn '/' l).getLastD []

/-- Python's `s.strip()` over the ASCII whitespace class. -/
def pyStrip (l : List Char) : List Char :=
  ((l.dropWhile isPySpace).reverse.dropWhile isPySpace).reverse

/-- Value of a hexadecimal digit character, if it is one. -/
def hexVal (c : Char) : Option Nat :=
  if '0' ≤ c ∧ c ≤ '9' then some (c.toNat - '0'.toNat)
  else if 'a' ≤ c ∧ c ≤ 'f' then some (c.toNat - 'a'.toNat + 10)
  else if 'A' ≤ c ∧ c ≤ 'F' then some (c.toNat - 'A'.toNat + 10)
  else none

/-- Byte-level model of `urllib.parse.unquote`: each `%XX` escape with two
hexadecimal digits is replaced by the character with that code; any other `%`
is kept verbatim. -/
def unquoteChars : List Char → List Char
  | [] => []
  | '%' :: a :: b :: rest =>
    match hexVal a, hexVal b with
    | some hi, some lo => Char.ofNat (16 * hi + lo) :: unquoteChars rest
    | _, _ => '%' :: unquoteChars (a :: b :: rest)
  | c :: cs => c :: unquoteChars cs

/-- State-machine scanner for `re.sub(r'<[^>]+>', '', s)`: while inside a
candidate tag the characters after the opening `<` are buffered (in reverse);
a `>` closing a non-empty buffer body discards the tag, a `>` immediately
after `<` flushes both characters (the pattern needs at least one character
between the brackets), and an unclosed `<` is flushed verbatim at the end. -/
def stripTagsAux : Option (List Char) → List Char → List Char
  | none, [] => []
  | some buf, [] => buf.reverse
  | none, c :: cs => if c = '<' then stripTagsAux (some [c]) cs else c :: stripTagsAux none cs
  | some buf, c :: cs =>
    if c = '>' then
      if 2 ≤ buf.length then stripTagsAux none cs
      else buf.reverse ++ '>' :: stripTagsAux none cs
    else stripTagsAux (some (c :: buf)) cs

/-- Removal of markup tags, `re.sub(r'<[^>]+>', '', s)`
(`topanimestrm/__init__.py` line 288). -/
def stripTags (l : List Char) : List Char := stripTagsAux none l

/-- `TopAnimeStrm._clean_filename` (`topanimestrm/__init__.py` lines 272-301):
truncate at `?a=view`, percent-decode, strip tags, keep the last path
segment, trim whitespace and force a `.mp4` extension; empty input is
returned unchanged. -/
def _clean_filename (filename : List Char) : List Char :=
  if filename.isEmpty then []
  else
    let f1 := if isSubstring qaViewMarker filename then takeBeforeFirst qaViewMarker filename
              else filename
    let f2 := unquoteChars f1
    let f3 := stripTags f2
    let f4 := if f3.contains '/' then lastSegment f3 else f3
    let f5 := pyStrip f4
    if mp4Ext.isSuffixOf f5 then f5 else f5 ++ mp4Ext

/-- Removal of the leading source tag, `re.sub(r'^\[ANi\]\s*', '', s)`. -/
def dropAniTag (l : List Char) : List Char :=
  if aniTag.isPrefixOf l then (l.drop aniTag.length).dropWhile isPySpace else l

/-- Whether `re.sub(r'\s*-\s*\d+\s*\[.*$', '', s)` matches at this position:
whitespace, a hyphen, whitespace, digits, whitespace, then `[`. -/
def episodeTagMatch (l : List Char) : Bool :=
  match l.dropWhile isPySpace with
  | '-' :: rest =>
    match rest.dropWhile isPySpace with
    | d :: ds =>
      d.isDigit &&
        (match ((d :: ds).dropWhile Char.isDigit).dropWhile isPySpace with
         | '[' :: _ => true
         | _ => false)
    | [] => false
  | _ => false

/-- Whether `re.sub(r'\s*\[.*$', '', s)` matches at this position:
whitespace then `[`. -/
def bracketTagMatch (l : List Char) : Bool :=
  match l.dropWhile isPySpace with
  | '[' :: _ => true
  | _ => false

/-- Truncate the string at the leftmost position where `p` matches (the
regexes modelled by `p` always extend to the end of the string). -/
def removeFromFirstMatch (p : List Char → Bool) : List Char → List Char
  | [] => []
  | c :: cs => if p (c :: cs) then [] else c :: removeFromFirstMatch p cs

/-- `TopAnimeStrm._extract_anime_name` (`topanimestrm/__init__.py` lines
303-314): drop the `[ANi]` prefix, cut at an episode marker followed by a
bracketed tag, cut at any remaining bracketed suffix, and trim. -/
def _extract_anime_name (filename : List Char) : List Char :=
  let n1 := dropAniTag filename
  let n2 := removeFromFirstMatch episodeTagMatch n1
  let n3 := removeFromFirstMatch bracketTagMatch n2
  pyStrip n3

/-- Decimal value of a digit string, as `int` applied to a regex group. -/
def digitsToNat (ds : List Char) : Nat :=
  ds.foldl (fun n c => 10 * n + (c.toNat - '0'.toNat)) 0

/-- Whether the regex `- (\d+)` matches at this position, and the value of its
group: a hyphen, a single space, then a maximal run of digits. -/
def episodeNumAt (l : List Char) : Option Nat :=
  match l with
  | '-' :: ' ' :: d :: ds =>
    if d.isDigit then some (digitsToNat ((d :: ds).takeWhile Char.isDigit)) else none
  | _ => none

/-- `TopAnimeStrm._extract_episode_number` (`topanimestrm/__init__.py` lines
316-321): `re.search(r'- (\d+)', s)` returns the group of the leftmost match
as an integer, and the function returns 0 when there is no match. -/
def _extract_episode_number : List Char → Nat
  | [] => 0
  | c :: cs =>
    match episodeNumAt (c :: cs) with
    | some n => n
    | none => _extract_episode_number cs

/-- Python's `s.replace(pat, rep)`: replace every non-overlapping occurrence,
scanning left to right.  (For an empty pattern the model is the identity;
the source only ever replaces a non-empty pattern.) -/
def replaceAll (pat rep : List Char) : List Char → List Char
  | [] => []
  | c :: cs =>
    if h : pat.isEmpty = false ∧ pat.isPrefixOf (c :: cs) = true then
      rep ++ replaceAll pat rep ((c :: cs).drop pat.length)
    else c :: replaceAll pat rep cs
termination_by l => l.length
decreasing_by
  · simp only [List.length_drop, List.length_cons]
    have hne : pat.length ≠ 0 := by
      intro hz
      rw [List.length_eq_zero] at hz
      simp [hz] at h
    omega
  · simp

/-- `TopAnimeStrm._is_url_format_valid` (`topanimestrm/__init__.py` lines
376-378): the URL ends with the literal `.mp4?d=true`. -/
def _is_url_format_valid (url : List Char) : Bool := mp4DTrue.isSuffixOf url

/-- `TopAnimeStrm._convert_url_format` (`topanimestrm/__init__.py` lines
380-390): replace `?d=mp4` by `.mp4?d=true` when present, else append
`?d=true` to a `.mp4` URL, else append `.mp4?d=true`. -/
def _convert_url_format (url : List Char) : List Char :=
  if isSubstring qdMp4 url then replaceAll qdMp4 mp4DTrue url
  else if mp4Ext.isSuffixOf url then url ++ dTrueQuery
  else url ++ mp4DTrue

/-- The feed-shape URL normalization path of `__touch_strm_file`
(`topanimestrm/__init__.py` lines 352-358): keep a valid URL, convert an
invalid one. -/
def normalize_feed_url (url : List Char) : List Char :=
  if _is_url_format_valid url then url else _convert_url_format url

/-- Python-dict grouping step: append the value to the entry of `key`,
inserting a new entry at the end when the key is absent (Python dicts
preserve insertion order). -/
def addToGroups : List (List Char × List (List Char)) → List Char → List Char →
    List (List Char × List (List Char))
  | [], key, v => [(key, [v])]
  | (k, vs) :: rest, key, v =>
    if k = key then (k, vs ++ [v]) :: rest else (k, vs) :: addToGroups rest key v

/-- One iteration of the grouping loop of `_clean_and_get_top15`
(`topanimestrm/__init__.py` lines 244-255): clean the filename, skip empty
results, and group the cleaned name under its extracted series name. -/
def groupStep (groups : List (List Char × List (List Char))) (filename : List Char) :
    List (List Char × List (List Char)) :=
  let cleanName := _clean_filename filename
  if cleanName.isEmpty then groups
  else
    let animeName := _extract_anime_name cleanName
    if animeName.isEmpty then groups
    else addToGroups groups animeName cleanName

/-- The `anime_series` dict built by `_clean_and_get_top15`. -/
def buildGroups (video_files : List (List Char)) : List (List Char × List (List Char)) :=
  video_files.foldl groupStep []

/-- Stable insertion for Python's `sorted(..., key=lambda x: len(x[1]),
reverse=True)`: the inserted element precedes every element with a count not
larger than its own (it originates earlier in the input than everything
already in the sorted list). -/
def insertGroupDesc (g : List Char × List (List Char)) :
    List (List Char × List (List Char)) → List (List Char × List (List Char))
  | [] => [g]
  | g' :: gs =>
    if g.2.length < g'.2.length then g' :: insertGroupDesc g gs else g :: g' :: gs

/-- Python's stable `sorted` by episode count, descending. -/
def sortGroupsDesc (groups : List (List Char × List (List Char))) :
    List (List Char × List (List Char)) :=
  groups.foldr insertGroupDesc []

/-- Stable insertion for `sorted(episodes, key=self._extract_episode_number)`
(ascending). -/
def insertEpisodeAsc (x : List Char) : List (List Char) → List (List Char)
  | [] => [x]
  | y :: ys =>
    if _extract_episode_number y < _extract_episode_number x then y :: insertEpisodeAsc x ys
    else x :: y :: ys

/-- Python's stable `sorted` by extracted episode number, ascending. -/
def sortEpisodesAsc (eps : List (List Char)) : List (List Char) :=
  eps.foldr insertEpisodeAsc []

/-- `TopAnimeStrm._clean_and_get_top15` (`topanimestrm/__init__.py` lines
239-270): group cleaned filenames by series name, rank groups by episode
count (stable, descending), keep the top 15 groups, sort each group's
episodes by number and concatenate. -/
def _clean_and_get_top15 (video_files : List (List Char)) : List (List Char) :=
  let sortedAnime := sortGroupsDesc (buildGroups video_files)
  let top15 := sortedAnime.take 15
  (top15.map (fun g => sortEpisodesAsc g.2)).flatten

/-- The loop of the `retry` decorator (`topanimestrm/__init__.py` lines
39-58).  The outside world is modelled by `f`, mapping the attempt index to
either a result or a raised exception.  Returns the final value together
with the list of sleep durations performed, in order. -/
def retryRun {E A : Type} (f : Nat → Except E A) (backoff : Nat) (ret : A) :
    Nat → Nat → Nat → A × List Nat
  | 0, _, _ => (ret, [])
  | mtries + 1, mdelay, i =>
    match f i with
    | Except.ok a => (a, [])
    | Except.error _ =>
      let r := retryRun f backoff ret mtries (mdelay * backoff) (i + 1)
      (r.1, mdelay :: r.2)

/-- `get_latest_list` under its `@retry(Exception, tries=3, logger=logger,
ret=[])` wrapper (`topanimestrm/__init__.py` lines 323-343): delay defaults
to 3 and backoff to 1. -/
def get_latest_list_retried (f : Nat → Except Unit (List (List Char × List Char))) :
    List (List Char × List Char) × List Nat :=
  retryRun f 1 [] 3 3 0

/-- `get_current_season_list` under its identical retry wrapper
(`topanimestrm/__init__.py` lines 142-143). -/
def get_current_season_list_retried (f : Nat → Except Unit (List (List Char))) :
    List (List Char) × List Nat :=
  retryRun f 1 [] 3 3 0

/-- Characters `urllib.parse.quote(·, safe='.')` leaves unescaped: the
always-safe set (letters, digits, `_.-~`) plus the `safe` argument `.`
(note `/` is not safe here). -/
def isQuoteSafeDot (c : Char) : Bool := c.isAlphanum || c ∈ ['_', '.', '-', '~']

/-- Upper-case hexadecimal digit. -/
def hexDigitUpper (n : Nat) : Char :=
  if n < 10 then Char.ofNat ('0'.toNat + n) else Char.ofNat ('A'.toNat + (n - 10))

/-- Byte-level model of `urllib.parse.quote(s, safe='.')`. -/
def quoteChars (l : List Char) : List Char :=
  l.foldr (fun c acc =>
    if isQuoteSafeDot c then c :: acc
    else '%' :: hexDigitUpper (c.toNat / 16) :: hexDigitUpper (c.toNat % 16) :: acc) []

/-- The literal `https://openani.an-i.workers.dev/`. -/
def openaniBase : List Char :=
  ['h', 't', 't', 'p', 's', ':', '/', '/', 'o', 'p', 'e', 'n', 'a', 'n', 'i', '.',
   'a', 'n', '-', 'i', '.', 'w', 'o', 'r', 'k', 'e', 'r', 's', '.', 'd', 'e', 'v', '/']

/-- The `src_url` computed by `__touch_strm_file` (`topanimestrm/__init__.py`
lines 346-358): a season-catalog URL when no feed URL is given (Python's
`if not file_url` also treats an empty string as absent), otherwise the
feed-shape normalization. -/
def touch_src_url (date file_name : List Char) (file_url : Option (List Char)) : List Char :=
  match file_url with
  | none => openaniBase ++ date ++ '/' :: quoteChars file_name ++ dTrueQuery
  | some u =>
    if u.isEmpty then openaniBase ++ date ++ '/' :: quoteChars file_name ++ dTrueQuery
    else normalize_feed_url u

/-- The target path computed by `__touch_strm_file` (`topanimestrm/__init__.py`
lines 361-362): `{storageplace}/{clean_file_name}.strm`. -/
def strm_path (storageplace file_name : List Char) : List Char :=
  storageplace ++ '/' :: _clean_filename file_name ++ strmExt

/-- The filesystem as a map from paths to file contents. -/
abbrev FileSystem := List (List Char × List Char)

/-- `TopAnimeStrm.__touch_strm_file` (`topanimestrm/__init__.py` lines
345-374): if the target path exists, report `False` without touching it,
otherwise write the source URL and report `True`. -/
def __touch_strm_file (fs : FileSystem) (storageplace date file_name : List Char)
    (file_url : Option (List Char)) : FileSystem × Bool :=
  let src_url := touch_src_url date file_name file_url
  let file_path := strm_path storageplace file_name
  if (List.lookup file_path fs).isSome then (fs, false)
  else ((file_path, src_url) :: fs, true)

/-- The inputs of the layered extraction in `get_current_season_list`
(`topanimestrm/__init__.py` lines 176-223), as produced by the external
browser/query capability: attribute reads may return `None`, and the
regex-scan layers are abstracted by their `re.findall` result lists (one per
pattern in the source's `patterns` list, then the body-text scan). -/
structure PageData where
  videoSrcs : List (Option (List Char))
  linkHrefs : List (Option (List Char))
  dataFilenames : List (Option (List Char))
  patternMatches : List (List (List Char))
  textMatches : List (List Char)

/-- Layer 1 (`topanimestrm/__init__.py` lines 180-184): `video` elements'
`src` attributes ending in `.mp4`; the last path segment is appended with
no membership check. -/
def layer1Step (acc : List (List Char)) (src : Option (List Char)) : List (List Char) :=
  match src with
  | some s => if !s.isEmpty && mp4Ext.isSuffixOf s then acc ++ [lastSegment s] else acc
  | none => acc

/-- Layer 2 (`topanimestrm/__init__.py` lines 187-193): anchors whose `href`
contains `.mp4`; the last path segment is appended if not already present. -/
def layer2Step (acc : List (List Char)) (href : Option (List Char)) : List (List Char) :=
  match href with
  | some h =>
    if !h.isEmpty && isSubstring mp4Ext h then
      let f := lastSegment h
      if acc.contains f then acc else acc ++ [f]
    else acc
  | none => acc

/-- Layer 3 (`topanimestrm/__init__.py` lines 196-200): `data-filename`
attributes containing `.mp4`, appended if not already present. -/
def layer3Step (acc : List (List Char)) (df : Option (List Char)) : List (List Char) :=
  match df with
  | some f =>
    if !f.isEmpty && isSubstring mp4Ext f && !acc.contains f then acc ++ [f] else acc
  | none => acc

/-- Layer 4 (`topanimestrm/__init__.py` lines 203-216): for each pattern's
match list, append each non-empty match not already present. -/
def layer4Step (acc : List (List Char)) (ms : List (List Char)) : List (List Char) :=
  ms.foldl (fun a m => if !m.isEmpty && !a.contains m then a ++ [m] else a) acc

/-- Layer 5 (`topanimestrm/__init__.py` lines 219-223): body-text matches,
appended if not already present. -/
def layer5Step (acc : List (List Char)) (m : List Char) : List (List Char) :=
  if acc.contains m then acc else acc ++ [m]

/-- The merged `video_files` list built by `get_current_season_list`
(`topanimestrm/__init__.py` lines 177-223) before it is handed to
`_clean_and_get_top15`. -/
def extractVideoFiles (p : PageData) : List (List Char) :=
  let v1 := p.videoSrcs.foldl layer1Step []
  let v2 := p.linkHrefs.foldl layer2Step v1
  let v3 := p.dataFilenames.foldl layer3Step v2
  let v4 := p.patternMatches.foldl layer4Step v3
  p.textMatches.foldl layer5Step v4

end TopAnimeStrm

namespace VideoStrm

open TopAnimeStrm (isPySpace)

/-- The character class removed by `VideoStrm._sanitize_filename`
(`videostrm/__init__.py` line 261). -/
def forbiddenChars : List Char := ['<', '>', ':', '"', '/', '\\', '|', '?', '*']

/-- Python's `str.split()` with no separator: maximal runs of
non-whitespace characters, with an accumulator for the current word
(kept reversed). -/
def pySplitAux : List Char → List Char → List (List Char)
  | [], acc => if acc.isEmpty then [] else [acc.reverse]
  | c :: cs, acc =>
    if isPySpace c then
      if acc.isEmpty then pySplitAux cs [] else acc.reverse :: pySplitAux cs []
    else pySplitAux cs (c :: acc)

/-- Python's `s.split()`. -/
def pySplit (l : List Char) : List (List Char) := pySplitAux l []

/-- Python's `' '.join(ws)`. -/
def joinSpace : List (List Char) → List Char
  | [] => []
  | [w] => w
  | w :: ws => w ++ ' ' :: joinSpace ws

/-- `VideoStrm._sanitize_filename` (`videostrm/__init__.py` lines 258-265):
drop forbidden characters, collapse whitespace, and truncate to 200
characters. -/
def _sanitize_filename (filename : List Char) : List Char :=
  let f1 := filename.filter (fun c => !forbiddenChars.contains c)
  let f2 := joinSpace (pySplit f1)
  if 200 < f2.length then f2.take 200 else f2

/-- The descriptor filename chosen by `create_strm_file`
(`videostrm/__init__.py` line 242): `code if code else
self._sanitize_filename(title)` (an empty code string is falsy). -/
def strm_filename (title : List Char) (code : Option (List Char)) : List Char :=
  match code with
  | some c => if c.isEmpty then _sanitize_filename title else c
  | none => _sanitize_filename title

/-- Decides that a string has no two adjacent whitespace characters. -/
def noTwoSpaces : List Char → Bool
  | a :: b :: rest => (!(isPySpace a && isPySpace b)) && noTwoSpaces (b :: rest)
  | _ => true

end VideoStrm

namespace TopAnimeStrm

lemma isPrefixOf_iff (p l : List Char) : p.isPrefixOf l = true ↔ p <+: l := by
  induction p generalizing l with
  | nil => simp [List.isPrefixOf]
  | cons a as ih =>
    cases l with
    | nil => simp [List.isPrefixOf]
    | cons b bs => simp [List.isPrefixOf, List.cons_prefix_cons, ih]

lemma isSuffixOf_iff (s l : List Char) : s.isSuffixOf l = true ↔ s <:+ l := by
  rw [List.isSuffixOf, isPrefixOf_iff]
  have h2 := @List.reverse_suffix Char s.reverse l.reverse
  simp only [List.reverse_reverse] at h2
  exact h2.symm

lemma isSuffixOf_append_self (l s : List Char) : s.isSuffixOf (l ++ s) = true :=
  (isSuffixOf_iff s (l ++ s)).mpr (List.suffix_append l s)

/-- Unfolding of `replaceAll` for the concrete pattern when it matches at the
head of the string. -/
lemma replaceAll_cons_match (c : Char) (cs : List Char)
    (h2 : qdMp4.isPrefixOf (c :: cs) = true) :
    replaceAll qdMp4 mp4DTrue (c :: cs) =
      mp4DTrue ++ replaceAll qdMp4 mp4DTrue ((c :: cs).drop qdMp4.length) := by
  rw [replaceAll]
  rw [dif_pos ⟨by decide, h2⟩]

/-- Unfolding of `replaceAll` for the concrete pattern when it does not match
at the head of the string. -/
lemma replaceAll_cons_nomatch (c : Char) (cs : List Char)
    (h2 : qdMp4.isPrefixOf (c :: cs) = false) :
    replaceAll qdMp4 mp4DTrue (c :: cs) = c :: replaceAll qdMp4 mp4DTrue cs := by
  rw [replaceAll]
  rw [dif_neg]
  simp [h2]

/-- The pattern `?d=mp4` does not overlap itself: no non-trivial tail of it is
a prefix of it. -/
lemma qdMp4_drop_not_pre (k : Nat) (h1 : 1 ≤ k) (h2 : k ≤ 5) :
    ¬ (qdMp4.drop k <+: qdMp4) := by
  interval_cases k <;> decide

/-- Replacing `?d=mp4` by `.mp4?d=true` in a string that ends with `?d=mp4`
yields a string that ends with `.mp4?d=true`. -/
lemma replaceAll_qdMp4_suffix_aux :
    ∀ (n : Nat) (l : List Char), l.length = n → qdMp4 <:+ l →
      mp4DTrue <:+ replaceAll qdMp4 mp4DTrue l := by
  intro n
  induction n using Nat.strong_induction_on with
  | _ n ih =>
    intro l hn hsuf
    cases l with
    | nil => exact absurd (List.suffix_nil.mp hsuf) (by decide)
    | cons c cs =>
      have h6 : qdMp4.length = 6 := rfl
      by_cases hpre : qdMp4.isPrefixOf (c :: cs) = true
      · rw [replaceAll_cons_match c cs hpre]
        rcases hsuf with ⟨s, hs⟩
        by_cases hdrop : ((c :: cs).drop qdMp4.length).isEmpty
        · have hnil : (c :: cs).drop qdMp4.length = [] := by
            simpa [List.isEmpty_iff] using hdrop
          rw [hnil, replaceAll]
          simp
        · have hne : (c :: cs).drop qdMp4.length ≠ [] := by
            simpa [List.isEmpty_iff] using hdrop
          have hslen : 6 ≤ s.length := by
            by_contra hlt
            push_neg at hlt
            have hs1 : 1 ≤ s.length := by
              rcases Nat.eq_zero_or_pos s.length with h0 | h1
              · exfalso
                have hs0 : s = [] := List.length_eq_zero.mp h0
                subst hs0
                simp only [List.nil_append] at hs
                apply hne
                rw [← hs]
                decide
              · exact h1
            have hpre2 : qdMp4 <+: (c :: cs) := (isPrefixOf_iff _ _).mp hpre
            rcases hpre2 with ⟨t, ht⟩
            have hdrop2 : (c :: cs).drop s.length = qdMp4 := by
              rw [← hs, List.drop_append_of_le_length (Nat.le_refl _)]
              simp
            rw [← ht, List.drop_append_of_le_length (by omega)] at hdrop2
            exact qdMp4_drop_not_pre s.length hs1 (by omega) ⟨t, hdrop2⟩
          have hsuf2 : qdMp4 <:+ (c :: cs).drop qdMp4.length := by
            refine ⟨s.drop 6, ?_⟩
            rw [← hs]
            rw [show qdMp4.length = 6 from rfl, List.drop_append_of_le_length hslen]
          have hlt : ((c :: cs).drop qdMp4.length).length < n := by
            rw [← hn]
            simp only [List.length_drop, List.length_cons]
            omega
          exact (ih _ hlt _ rfl hsuf2).trans (List.suffix_append _ _)
      · have hpre' : qdMp4.isPrefixOf (c :: cs) = false := Bool.eq_false_iff.mpr hpre
        rw [replaceAll_cons_nomatch c cs hpre']
        rcases List.suffix_cons_iff.mp hsuf with heq | htail
        · exfalso
          apply hpre
          rw [isPrefixOf_iff, heq]
        · have hlt : cs.length < n := by rw [← hn]; simp
          exact (ih _ hlt _ rfl htail).trans (List.suffix_cons c _)

/-- In the conversion branches that append to the URL, the result ends with
`.mp4?d=true`. -/
lemma convert_suffix_of_not_contains (url : List Char)
    (h : isSubstring qdMp4 url = false) :
    mp4DTrue.isSuffixOf (_convert_url_format url) = true := by
  rw [_convert_url_format, h]
  simp only [Bool.false_eq_true, if_false]
  by_cases hmp4 : mp4Ext.isSuffixOf url = true
  · rw [if_pos hmp4]
    rcases (isSuffixOf_iff _ _).mp hmp4 with ⟨u, hu⟩
    rw [← hu, List.append_assoc]
    exact isSuffixOf_append_self u (mp4Ext ++ dTrueQuery)
  · rw [if_neg hmp4]
    exact isSuffixOf_append_self url mp4DTrue

lemma substring_of_suffix (pat l : List Char) (h : pat <:+ l) :
    isSubstring pat l = true := by
  induction l with
  | nil =>
    rw [List.suffix_nil.mp h]
    rfl
  | cons c cs ih =>
    rcases List.suffix_cons_iff.mp h with heq | htail
    · subst heq
      simp [isSubstring, (isPrefixOf_iff _ _).mpr List.prefix_rfl]
    · simp [isSubstring, ih htail]

/-- Claim C1, counterexample: the input `x?d=mp4y` goes through the invalid
branch, `?d=mp4` is replaced in the middle of the string, and the result
`x.mp4?d=truey` does not end with `.mp4?d=true`. -/
theorem feed_url_not_always_suffixed :
    normalize_feed_url ['x', '?', 'd', '=', 'm', 'p', '4', 'y'] =
      ['x', '.', 'm', 'p', '4', '?', 'd', '=', 't', 'r', 'u', 'e', 'y'] ∧
    _is_url_format_valid
      (normalize_feed_url ['x', '?', 'd', '=', 'm', 'p', '4', 'y']) = false := by
  have h : normalize_feed_url ['x', '?', 'd', '=', 'm', 'p', '4', 'y'] =
      ['x', '.', 'm', 'p', '4', '?', 'd', '=', 't', 'r', 'u', 'e', 'y'] := by
    simp [normalize_feed_url, _is_url_format_valid, _convert_url_format, replaceAll,
      isSubstring, mp4DTrue, qdMp4, mp4Ext, dTrueQuery]
    decide
  exact ⟨h, by rw [h]; decide⟩

/-- Claim C1, amended: for every input string in which the literal `?d=mp4`
occurs at most as a suffix (it does not occur strictly inside the string),
the feed-shape URL normalization path (check `_is_url_format_valid`, then
`_convert_url_format` when invalid) produces a URL that ends with the
literal suffix `.mp4?d=true`. -/
theorem feed_url_suffix_amended (url : List Char)
    (h : isSubstring qdMp4 url = false ∨ qdMp4.isSuffixOf url = true ∨
         mp4DTrue.isSuffixOf url = true) :
    mp4DTrue.isSuffixOf (normalize_feed_url url) = true := by
  rw [normalize_feed_url]
  by_cases hvalid : _is_url_format_valid url = true
  · rw [if_pos hvalid]
    exact hvalid
  · rw [if_neg hvalid]
    rcases h with hno | hqd | hval
    · exact convert_suffix_of_not_contains url hno
    · have hsuf : qdMp4 <:+ url := (isSuffixOf_iff _ _).mp hqd
      rw [_convert_url_format, substring_of_suffix qdMp4 url hsuf]
      simp only [if_true]
      exact (isSuffixOf_iff _ _).mpr (replaceAll_qdMp4_suffix_aux url.length url rfl hsuf)
    · exact absurd hval (by rwa [_is_url_format_valid] at hvalid)

/-- Witness for the amended claim C1 at the concrete input `x?d=mp4`. -/
theorem feed_url_suffix_amended_witness :
    (isSubstring qdMp4 ['x', '?', 'd', '=', 'm', 'p', '4'] = false ∨
     qdMp4.isSuffixOf ['x', '?', 'd', '=', 'm', 'p', '4'] = true ∨
     mp4DTrue.isSuffixOf ['x', '?', 'd', '=', 'm', 'p', '4'] = true) ∧
    mp4DTrue.isSuffixOf (normalize_feed_url ['x', '?', 'd', '=', 'm', 'p', '4']) = true :=
  ⟨Or.inr (Or.inl (by decide)),
   feed_url_suffix_amended ['x', '?', 'd', '=', 'm', 'p', '4'] (Or.inr (Or.inl (by decide)))⟩

end TopAnimeStrm

namespace TopAnimeStrm

/-- For a non-empty input, `_clean_filename` always returns a string ending
in `.mp4`: the final step appends the extension whenever it is missing. -/
lemma clean_filename_ends_mp4 (l : List Char) (h : l.isEmpty = false) :
    mp4Ext.isSuffixOf (_clean_filename l) = true := by
  rw [_clean_filename, h]
  simp only [Bool.false_eq_true, if_false]
  set f5 := pyStrip (if (stripTags (unquoteChars (if isSubstring qaViewMarker l then
    takeBeforeFirst qaViewMarker l else l))).contains '/' then
    lastSegment (stripTags (unquoteChars (if isSubstring qaViewMarker l then
      takeBeforeFirst qaViewMarker l else l)))
    else stripTags (unquoteChars (if isSubstring qaViewMarker l then
      takeBeforeFirst qaViewMarker l else l))) with hf5
  by_cases hs : mp4Ext.isSuffixOf f5 = true
  · rw [if_pos hs]
    exact hs
  · rw [if_neg hs]
    exact isSuffixOf_append_self f5 mp4Ext

/-- Claim C9: for every non-empty raw name the normalizer's output ends with
`.mp4`, and the empty input yields the empty output. -/
theorem clean_filename_extension (l : List Char) :
    (l.isEmpty = false → mp4Ext.isSuffixOf (_clean_filename l) = true) ∧
    _clean_filename [] = [] := by
  refine ⟨fun h => clean_filename_ends_mp4 l h, ?_⟩
  rfl

/-- Witness for claim C9 at the one-character input `a`. -/
theorem clean_filename_extension_witness :
    (List.isEmpty ['a'] = false ∧ mp4Ext.isSuffixOf (_clean_filename ['a']) = true) ∧
    _clean_filename [] = [] :=
  ⟨⟨by decide, (clean_filename_extension ['a']).1 (by decide)⟩,
   (clean_filename_extension ['a']).2⟩

end TopAnimeStrm

namespace TopAnimeStrm

/-- A string that every individual cleaning step of `_clean_filename` leaves
unchanged: no `?a=view` marker, fixed under percent-decoding, fixed under tag
stripping, no path separator, and no surrounding whitespace. -/
def CleanFixed (m : List Char) : Prop :=
  isSubstring qaViewMarker m = false ∧ unquoteChars m = m ∧ stripTags m = m ∧
  m.contains '/' = false ∧ pyStrip m = m

instance (m : List Char) : Decidable (CleanFixed m) := by
  unfold CleanFixed
  infer_instance

/-- Claim C2, counterexample: `_clean_filename` is not idempotent.  The input
`%2525` cleans to `%25.mp4`, and cleaning again percent-decodes once more,
giving `%.mp4`. -/
theorem clean_filename_not_idempotent :
    _clean_filename (_clean_filename ['%', '2', '5', '2', '5']) ≠
      _clean_filename ['%', '2', '5', '2', '5'] := by decide

/-- Claim C2, amended: `_clean_filename` is idempotent on every input whose
cleaned form is itself a fixed point of each cleaning step (in particular
re-decoding, the `?a=view` cut, tag stripping, path splitting and trimming
change nothing). -/
theorem clean_filename_idem_amended (n : List Char)
    (h : CleanFixed (_clean_filename n)) :
    _clean_filename (_clean_filename n) = _clean_filename n := by
  by_cases hn : n.isEmpty = true
  · have hnil : _clean_filename n = [] := by
      rw [_clean_filename, hn]
      simp
    rw [hnil]
    rfl
  · have hn' : n.isEmpty = false := Bool.eq_false_iff.mpr hn
    have hm := clean_filename_ends_mp4 n hn'
    obtain ⟨h1, h2, h3, h4, h5⟩ := h
    have hme : (_clean_filename n).isEmpty = false := by
      rcases (isSuffixOf_iff _ _).mp hm with ⟨u, hu⟩
      rw [← hu]
      simp [mp4Ext]
    set m := _clean_filename n with hmdef
    simp only [_clean_filename, hme, h1, h2, h3, h4, h5, hm, Bool.false_eq_true,
      if_false, if_true]

/-- Witness for the amended claim C2 at the concrete input `abc`. -/
theorem clean_filename_idem_amended_witness :
    CleanFixed (_clean_filename ['a', 'b', 'c']) ∧
    _clean_filename (_clean_filename ['a', 'b', 'c']) = _clean_filename ['a', 'b', 'c'] :=
  ⟨by decide, clean_filename_idem_amended ['a', 'b', 'c'] (by decide)⟩

/-- Follows the words of claim C5 (not the source): a match is a hyphen, an
optional space, and digits; the value is the digit run as an integer. -/
def episodeNumClaimAt (l : List Char) : Option Nat :=
  match l with
  | '-' :: ' ' :: d :: ds =>
    if d.isDigit then some (digitsToNat ((d :: ds).takeWhile Char.isDigit)) else none
  | '-' :: d :: ds =>
    if d.isDigit then some (digitsToNat ((d :: ds).takeWhile Char.isDigit)) else none
  | _ => none

/-- Follows the words of claim C5 (not the source): value of the first
occurrence of a hyphen, an optional space, and digits; 0 when there is none. -/
def episode_number_claim : List Char → Nat
  | [] => 0
  | c :: cs =>
    match episodeNumClaimAt (c :: cs) with
    | some n => n
    | none => episode_number_claim cs

/-- Claim C5, counterexample: on `A -1.mp4` the claimed reading (optional
space) extracts 1, but the code's regex `- (\d+)` requires the space and
returns 0. -/
theorem episode_number_space_mandatory :
    _extract_episode_number ['A', ' ', '-', '1', '.', 'm', 'p', '4'] = 0 ∧
    episode_number_claim ['A', ' ', '-', '1', '.', 'm', 'p', '4'] = 1 ∧
    _extract_episode_number ['A', ' ', '-', '1', '.', 'm', 'p', '4'] ≠
      episode_number_claim ['A', ' ', '-', '1', '.', 'm', 'p', '4'] := by decide

/-- Claim C5, amended: for every name, the extractor returns the integer
value of the digits of the first occurrence of a hyphen, a single mandatory
space, and digits (`episodeNumAt`); if no position matches, it returns 0. -/
theorem episode_number_first_match (l : List Char) :
    (_extract_episode_number l = 0 ∧ ∀ i, episodeNumAt (l.drop i) = none) ∨
    (∃ i, episodeNumAt (l.drop i) = some (_extract_episode_number l) ∧
      ∀ j, j < i → episodeNumAt (l.drop j) = none) := by
  induction l with
  | nil =>
    left
    exact ⟨rfl, fun i => by rw [List.drop_nil]; rfl⟩
  | cons c cs ih =>
    cases hat : episodeNumAt (c :: cs) with
    | some n =>
      have hval : _extract_episode_number (c :: cs) = n := by
        rw [_extract_episode_number, hat]
      right
      refine ⟨0, ?_, ?_⟩
      · rw [List.drop_zero, hat, hval]
      · intro j hj
        omega
    | none =>
      have hstep : _extract_episode_number (c :: cs) = _extract_episode_number cs := by
        rw [_extract_episode_number, hat]
      rcases ih with ⟨h0, hall⟩ | ⟨i, hi, hjlt⟩
      · left
        refine ⟨by rw [hstep, h0], ?_⟩
        intro i
        cases i with
        | zero => simpa using hat
        | succ k =>
          rw [List.drop_succ_cons]
          exact hall k
      · right
        refine ⟨i + 1, ?_, ?_⟩
        · rw [List.drop_succ_cons, hstep]
          exact hi
        · intro j hj
          cases j with
          | zero => simpa using hat
          | succ k =>
            rw [List.drop_succ_cons]
            exact hjlt k (by omega)

/-- Witness for the amended claim C5 at the concrete input `- 3`. -/
theorem episode_number_first_match_witness :
    (_extract_episode_number ['-', ' ', '3'] = 0 ∧
      ∀ i, episodeNumAt (List.drop i ['-', ' ', '3']) = none) ∨
    (∃ i, episodeNumAt (List.drop i ['-', ' ', '3']) =
        some (_extract_episode_number ['-', ' ', '3']) ∧
      ∀ j, j < i → episodeNumAt (List.drop j ['-', ' ', '3']) = none) :=
  episode_number_first_match ['-', ' ', '3']

/-- Claim C3, counterexample: the episode-stripping regex of
`_extract_anime_name` requires a bracketed tag after the episode number, so
`A - 1.mp4` and `A - 2.mp4` keep distinct series keys (each the full cleaned
name), not the common key `A` asserted by the claim. -/
theorem aggregator_distinct_keys :
    _extract_anime_name (_clean_filename ['A', ' ', '-', ' ', '1', '.', 'm', 'p', '4']) ≠
      _extract_anime_name (_clean_filename ['A', ' ', '-', ' ', '2', '.', 'm', 'p', '4']) ∧
    _extract_anime_name (_clean_filename ['A', ' ', '-', ' ', '1', '.', 'm', 'p', '4']) ≠
      ['A'] := by decide

/-- Claim C3, amended: aggregating `["A - 1.mp4", "A - 2.mp4", "B - 1.mp4"]`
produces three singleton groups whose keys are the full cleaned names (the
episode marker is only stripped when followed by a bracketed tag); the
groups tie at one episode each, the stable ranking preserves input order,
and the flattened output equals the input sequence. -/
theorem aggregator_scenario :
    buildGroups [['A', ' ', '-', ' ', '1', '.', 'm', 'p', '4'],
                 ['A', ' ', '-', ' ', '2', '.', 'm', 'p', '4'],
                 ['B', ' ', '-', ' ', '1', '.', 'm', 'p', '4']] =
      [(['A', ' ', '-', ' ', '1', '.', 'm', 'p', '4'],
          [['A', ' ', '-', ' ', '1', '.', 'm', 'p', '4']]),
       (['A', ' ', '-', ' ', '2', '.', 'm', 'p', '4'],
          [['A', ' ', '-', ' ', '2', '.', 'm', 'p', '4']]),
       (['B', ' ', '-', ' ', '1', '.', 'm', 'p', '4'],
          [['B', ' ', '-', ' ', '1', '.', 'm', 'p', '4']])] ∧
    _clean_and_get_top15 [['A', ' ', '-', ' ', '1', '.', 'm', 'p', '4'],
                          ['A', ' ', '-', ' ', '2', '.', 'm', 'p', '4'],
                          ['B', ' ', '-', ' ', '1', '.', 'm', 'p', '4']] =
      [['A', ' ', '-', ' ', '1', '.', 'm', 'p', '4'],
       ['A', ' ', '-', ' ', '2', '.', 'm', 'p', '4'],
       ['B', ' ', '-', ' ', '1', '.', 'm', 'p', '4']] := by decide

end TopAnimeStrm

namespace TopAnimeStrm

/-- Every episode stored in a group of the `anime_series` dict has that
group's key as its extracted series name. -/
lemma addToGroups_inv (groups : List (List Char × List (List Char))) (key v : List Char)
    (hg : ∀ p ∈ groups, ∀ x ∈ p.2, _extract_anime_name x = p.1)
    (hv : _extract_anime_name v = key) :
    ∀ p ∈ addToGroups groups key v, ∀ x ∈ p.2, _extract_anime_name x = p.1 := by
  induction groups with
  | nil =>
    intro p hp x hx
    simp only [addToGroups, List.mem_singleton] at hp
    subst hp
    simp only [List.mem_singleton] at hx
    subst hx
    exact hv
  | cons g gs ih =>
    intro p hp x hx
    rcases g with ⟨k, vs⟩
    rw [addToGroups] at hp
    by_cases hk : k = key
    · rw [if_pos hk] at hp
      rcases List.mem_cons.mp hp with rfl | htail
      · rcases List.mem_append.mp hx with hin | hone
        · exact hg (k, vs) (List.mem_cons_self _ _) x hin
        · simp only [List.mem_singleton] at hone
          subst hone
          rw [hv, hk]
      · exact hg p (List.mem_cons_of_mem _ htail) x hx
    · rw [if_neg hk] at hp
      rcases List.mem_cons.mp hp with rfl | htail
      · exact hg (k, vs) (List.mem_cons_self _ _) x hx
      · exact ih (fun q hq => hg q (List.mem_cons_of_mem _ hq)) p htail x hx

/-- The grouping loop invariant, over the whole fold. -/
lemma buildGroups_inv_aux (files : List (List Char)) :
    ∀ (groups : List (List Char × List (List Char))),
      (∀ p ∈ groups, ∀ x ∈ p.2, _extract_anime_name x = p.1) →
      ∀ p ∈ files.foldl groupStep groups, ∀ x ∈ p.2, _extract_anime_name x = p.1 := by
  induction files with
  | nil =>
    intro groups hg
    simpa using hg
  | cons f fs ih =>
    intro groups hg
    rw [List.foldl_cons]
    apply ih
    simp only [groupStep]
    split
    · exact hg
    · split
      · exact hg
      · exact addToGroups_inv groups _ _ hg rfl

lemma mem_insertGroupDesc (g p : List Char × List (List Char))
    (l : List (List Char × List (List Char))) (h : p ∈ insertGroupDesc g l) :
    p = g ∨ p ∈ l := by
  induction l with
  | nil => simpa [insertGroupDesc] using h
  | cons g' gs ih =>
    rw [insertGroupDesc] at h
    by_cases hc : g.2.length < g'.2.length
    · rw [if_pos hc] at h
      rcases List.mem_cons.mp h with rfl | h2
      · right
        exact List.mem_cons_self _ _
      · rcases ih h2 with h3 | h4
        · left
          exact h3
        · right
          exact List.mem_cons_of_mem _ h4
    · rw [if_neg hc] at h
      rcases List.mem_cons.mp h with rfl | h2
      · left
        rfl
      · right
        exact h2

lemma mem_sortGroupsDesc (p : List Char × List (List Char))
    (l : List (List Char × List (List Char))) (h : p ∈ sortGroupsDesc l) : p ∈ l := by
  induction l with
  | nil => simpa [sortGroupsDesc] using h
  | cons g gs ih =>
    rw [sortGroupsDesc, List.foldr_cons] at h
    rcases mem_insertGroupDesc g p _ h with rfl | h2
    · exact List.mem_cons_self _ _
    · exact List.mem_cons_of_mem _ (ih h2)

lemma mem_insertEpisodeAsc (x p : List Char) (l : List (List Char))
    (h : p ∈ insertEpisodeAsc x l) : p = x ∨ p ∈ l := by
  induction l with
  | nil => simpa [insertEpisodeAsc] using h
  | cons y ys ih =>
    rw [insertEpisodeAsc] at h
    by_cases hc : _extract_episode_number y < _extract_episode_number x
    · rw [if_pos hc] at h
      rcases List.mem_cons.mp h with rfl | h2
      · right
        exact List.mem_cons_self _ _
      · rcases ih h2 with h3 | h4
        · left
          exact h3
        · right
          exact List.mem_cons_of_mem _ h4
    · rw [if_neg hc] at h
      rcases List.mem_cons.mp h with rfl | h2
      · left
        rfl
      · right
        exact h2

lemma mem_sortEpisodesAsc (p : List Char) (l : List (List Char))
    (h : p ∈ sortEpisodesAsc l) : p ∈ l := by
  induction l with
  | nil => simpa [sortEpisodesAsc] using h
  | cons y ys ih =>
    rw [sortEpisodesAsc, List.foldr_cons] at h
    rcases mem_insertEpisodeAsc y p _ h with rfl | h2
    · exact List.mem_cons_self _ _
    · exact List.mem_cons_of_mem _ (ih h2)

/-- Claim C6: for every input list of candidate filenames, the flattened
output of `_clean_and_get_top15` contains episodes from at most 15 distinct
series keys: the ranking is truncated to 15 groups before flattening, and
every flattened episode recomputes to its group's key. -/
theorem top15_key_bound (files : List (List Char)) :
    ((_clean_and_get_top15 files).map _extract_anime_name).dedup.length ≤ 15 := by
  classical
  have hmem : ∀ y ∈ (_clean_and_get_top15 files).map _extract_anime_name,
      y ∈ ((sortGroupsDesc (buildGroups files)).take 15).map Prod.fst := by
    intro y hy
    rcases List.mem_map.mp hy with ⟨x, hx, rfl⟩
    have hx2 : x ∈ (((sortGroupsDesc (buildGroups files)).take 15).map
        (fun g => sortEpisodesAsc g.2)).flatten := hx
    rcases List.mem_flatten.mp hx2 with ⟨eps, heps, hxeps⟩
    rcases List.mem_map.mp heps with ⟨g, hg, rfl⟩
    have hgx : x ∈ g.2 := mem_sortEpisodesAsc x g.2 hxeps
    have hgmem : g ∈ buildGroups files :=
      mem_sortGroupsDesc g _ (List.mem_of_mem_take hg)
    have hkey : _extract_anime_name x = g.1 :=
      buildGroups_inv_aux files [] (by simp) g hgmem x hgx
    rw [hkey]
    exact List.mem_map.mpr ⟨g, hg, rfl⟩
  have hsub : ((_clean_and_get_top15 files).map _extract_anime_name).dedup.toFinset ⊆
      (((sortGroupsDesc (buildGroups files)).take 15).map Prod.fst).toFinset := by
    intro y hy
    rw [List.mem_toFinset, List.mem_dedup] at hy
    rw [List.mem_toFinset]
    exact hmem y hy
  calc ((_clean_and_get_top15 files).map _extract_anime_name).dedup.length
      = ((_clean_and_get_top15 files).map _extract_anime_name).dedup.toFinset.card :=
        (List.toFinset_card_of_nodup (List.nodup_dedup _)).symm
    _ ≤ (((sortGroupsDesc (buildGroups files)).take 15).map Prod.fst).toFinset.card :=
        Finset.card_le_card hsub
    _ ≤ (((sortGroupsDesc (buildGroups files)).take 15).map Prod.fst).length :=
        List.toFinset_card_le _
    _ = ((sortGroupsDesc (buildGroups files)).take 15).length := List.length_map _ _
    _ ≤ 15 := by
        rw [List.length_take]
        exact Nat.min_le_left _ _

end TopAnimeStrm

namespace TopAnimeStrm

/-- Claim C4: the descriptor writer is write-once and idempotent.  If the
target path already exists, the call returns `false` and leaves the
filesystem unchanged; on a fresh path, the first call creates the file with
the computed source URL and returns `true`, and a second call with the same
arguments returns `false` and leaves the filesystem (hence the content
written by the first call) unchanged. -/
theorem touch_strm_write_once (fs : FileSystem) (storageplace date file_name : List Char)
    (file_url : Option (List Char)) :
    ((List.lookup (strm_path storageplace file_name) fs).isSome = true →
      __touch_strm_file fs storageplace date file_name file_url = (fs, false)) ∧
    (List.lookup (strm_path storageplace file_name) fs = none →
      (__touch_strm_file fs storageplace date file_name file_url).2 = true ∧
      List.lookup (strm_path storageplace file_name)
          (__touch_strm_file fs storageplace date file_name file_url).1 =
        some (touch_src_url date file_name file_url) ∧
      __touch_strm_file (__touch_strm_file fs storageplace date file_name file_url).1
          storageplace date file_name file_url =
        ((__touch_strm_file fs storageplace date file_name file_url).1, false)) := by
  constructor
  · intro h
    simp only [__touch_strm_file, h, if_true]
  · intro h
    have h1 : (List.lookup (strm_path storageplace file_name) fs).isSome = false := by
      rw [h]
      rfl
    have hfirst : __touch_strm_file fs storageplace date file_name file_url =
        ((strm_path storageplace file_name, touch_src_url date file_name file_url) :: fs,
          true) := by
      simp only [__touch_strm_file, h1, Bool.false_eq_true, if_false]
    rw [hfirst]
    refine ⟨rfl, ?_, ?_⟩
    · simp [List.lookup]
    · simp [__touch_strm_file, List.lookup]

/-- Witness for claim C4: a fresh path is created then reported as existing,
and a pre-existing path is never overwritten. -/
theorem touch_strm_write_once_witness :
    (List.lookup (strm_path ['t'] ['a']) ([] : FileSystem) = none ∧
      (__touch_strm_file [] ['t'] ['d'] ['a'] (some ['u'])).2 = true ∧
      List.lookup (strm_path ['t'] ['a'])
          (__touch_strm_file [] ['t'] ['d'] ['a'] (some ['u'])).1 =
        some (touch_src_url ['d'] ['a'] (some ['u'])) ∧
      __touch_strm_file (__touch_strm_file [] ['t'] ['d'] ['a'] (some ['u'])).1
          ['t'] ['d'] ['a'] (some ['u']) =
        ((__touch_strm_file [] ['t'] ['d'] ['a'] (some ['u'])).1, false)) ∧
    ((List.lookup (strm_path ['t'] ['a']) [(strm_path ['t'] ['a'], ['z'])]).isSome = true ∧
      __touch_strm_file [(strm_path ['t'] ['a'], ['z'])] ['t'] ['d'] ['a'] (some ['u']) =
        ([(strm_path ['t'] ['a'], ['z'])], false)) :=
  ⟨⟨by decide,
    (touch_strm_write_once [] ['t'] ['d'] ['a'] (some ['u'])).2 (by decide)⟩,
   ⟨by simp [List.lookup],
    (touch_strm_write_once [(strm_path ['t'] ['a'], ['z'])] ['t'] ['d'] ['a']
      (some ['u'])).1 (by simp [List.lookup])⟩⟩

/-- Claim C8: when every one of the 3 attempts raises, the retry wrapper of
each fetch operation sleeps the fixed 3-second delay after each failure
(backoff factor 1 keeps it constant) and returns the `ret=[]` default, never
propagating the exception. -/
theorem fetch_retry_exhaustion
    (f : Nat → Except Unit (List (List Char × List Char)))
    (g : Nat → Except Unit (List (List Char)))
    (hf : ∀ i, i < 3 → f i = Except.error ())
    (hg : ∀ i, i < 3 → g i = Except.error ()) :
    get_latest_list_retried f = ([], [3, 3, 3]) ∧
    get_current_season_list_retried g = ([], [3, 3, 3]) := by
  constructor
  · have h0 := hf 0 (by omega)
    have h1 := hf 1 (by omega)
    have h2 := hf 2 (by omega)
    simp [get_latest_list_retried, retryRun, h0, h1, h2]
  · have h0 := hg 0 (by omega)
    have h1 := hg 1 (by omega)
    have h2 := hg 2 (by omega)
    simp [get_current_season_list_retried, retryRun, h0, h1, h2]

/-- Witness for claim C8 with attempts that always raise. -/
theorem fetch_retry_exhaustion_witness :
    ((∀ i, i < 3 →
        (fun _ => (Except.error () : Except Unit (List (List Char × List Char)))) i =
          Except.error ()) ∧
     (∀ i, i < 3 →
        (fun _ => (Except.error () : Except Unit (List (List Char)))) i =
          Except.error ())) ∧
    get_latest_list_retried
        (fun _ => (Except.error () : Except Unit (List (List Char × List Char)))) =
      ([], [3, 3, 3]) ∧
    get_current_season_list_retried
        (fun _ => (Except.error () : Except Unit (List (List Char)))) =
      ([], [3, 3, 3]) :=
  ⟨⟨fun _ _ => rfl, fun _ _ => rfl⟩,
   fetch_retry_exhaustion _ _ (fun _ _ => rfl) (fun _ _ => rfl)⟩

end TopAnimeStrm

namespace TopAnimeStrm

lemma nodup_append_singleton (acc : List (List Char)) (y : List Char)
    (hy : acc.contains y = false) (h : acc.Nodup) : (acc ++ [y]).Nodup := by
  rw [List.nodup_append]
  refine ⟨h, List.nodup_singleton y, ?_⟩
  intro x hx hx2
  simp only [List.mem_singleton] at hx2
  subst hx2
  have hc : acc.contains x = true := by
    simpa using hx
  rw [hy] at hc
  exact Bool.false_ne_true hc

lemma nodup_foldl_of_step {β : Type} (step : List (List Char) → β → List (List Char))
    (hstep : ∀ acc b, acc.Nodup → (step acc b).Nodup) :
    ∀ (l : List β) (acc : List (List Char)), acc.Nodup → (l.foldl step acc).Nodup := by
  intro l
  induction l with
  | nil =>
    intro acc h
    simpa using h
  | cons b bs ih =>
    intro acc h
    rw [List.foldl_cons]
    exact ih _ (hstep acc b h)

lemma layer2Step_nodup (acc : List (List Char)) (b : Option (List Char)) (h : acc.Nodup) :
    (layer2Step acc b).Nodup := by
  cases b with
  | none => exact h
  | some s =>
    simp only [layer2Step]
    split
    · split
      · exact h
      · rename_i h2
        exact nodup_append_singleton acc _ (Bool.eq_false_iff.mpr h2) h
    · exact h

lemma layer3Step_nodup (acc : List (List Char)) (b : Option (List Char)) (h : acc.Nodup) :
    (layer3Step acc b).Nodup := by
  cases b with
  | none => exact h
  | some f =>
    simp only [layer3Step]
    split
    · rename_i h1
      simp only [Bool.and_eq_true, Bool.not_eq_true'] at h1
      exact nodup_append_singleton acc f h1.2 h
    · exact h

lemma layer4Step_nodup (acc : List (List Char)) (ms : List (List Char)) (h : acc.Nodup) :
    (layer4Step acc ms).Nodup := by
  rw [layer4Step]
  refine nodup_foldl_of_step _ ?_ ms acc h
  intro a m ha
  split
  · rename_i h1
    simp only [Bool.and_eq_true, Bool.not_eq_true'] at h1
    exact nodup_append_singleton a m h1.2 ha
  · exact ha

lemma layer5Step_nodup (acc : List (List Char)) (m : List Char) (h : acc.Nodup) :
    (layer5Step acc m).Nodup := by
  rw [layer5Step]
  split
  · exact h
  · rename_i h2
    exact nodup_append_singleton acc m (Bool.eq_false_iff.mpr h2) h

/-- A page on which the `video`-tag layer reports the same `src` twice. -/
def pageDup : PageData :=
  ⟨[some ['a', '.', 'm', 'p', '4'], some ['a', '.', 'm', 'p', '4']], [], [], [], []⟩

/-- A page on which the `video`-tag layer reports a single `src`. -/
def pageOne : PageData :=
  ⟨[some ['a', '.', 'm', 'p', '4']], [], [], [], []⟩

/-- Claim C7, counterexample: the first extraction layer appends without a
membership check, so a page whose `video` elements repeat the same `src`
yields a merged candidate list with a duplicate entry. -/
theorem extract_video_files_dup :
    extractVideoFiles pageDup = [['a', '.', 'm', 'p', '4'], ['a', '.', 'm', 'p', '4']] ∧
    ¬ (extractVideoFiles pageDup).Nodup := by decide

/-- Claim C7, amended: layers 2-5 of the extraction merge check membership
before appending, so whenever the layer-1 (`video` `src`) contributions are
pairwise distinct the whole merged candidate list is duplicate-free; layer 1
itself appends unconditionally, which is the only source of duplicates. -/
theorem extract_video_files_nodup (p : PageData)
    (h : (p.videoSrcs.foldl layer1Step []).Nodup) :
    (extractVideoFiles p).Nodup := by
  simp only [extractVideoFiles]
  exact nodup_foldl_of_step _ layer5Step_nodup _ _
    (nodup_foldl_of_step _ layer4Step_nodup _ _
      (nodup_foldl_of_step _ layer3Step_nodup _ _
        (nodup_foldl_of_step _ layer2Step_nodup _ _ h)))

/-- Witness for the amended claim C7 on a page with one video source. -/
theorem extract_video_files_nodup_witness :
    (pageOne.videoSrcs.foldl layer1Step []).Nodup ∧ (extractVideoFiles pageOne).Nodup :=
  ⟨by decide, extract_video_files_nodup pageOne (by decide)⟩

end TopAnimeStrm

namespace VideoStrm

open TopAnimeStrm (isPySpace)

lemma head?_append_left {xs : List Char} (ys : List Char) (h : xs ≠ []) :
    (xs ++ ys).head? = xs.head? := by
  cases xs with
  | nil => exact absurd rfl h
  | cons a l => rfl

lemma getLast?_append_right (xs : List Char) {ys : List Char} (h : ys ≠ []) :
    (xs ++ ys).getLast? = ys.getLast? := by
  induction xs with
  | nil => rfl
  | cons a xs' ih =>
    rw [List.cons_append]
    cases hx : xs' ++ ys with
    | nil =>
      rcases List.append_eq_nil.mp hx with ⟨_, h2⟩
      exact absurd h2 h
    | cons b l =>
      rw [List.getLast?_cons_cons, ← hx]
      exact ih

lemma pySplitAux_words :
    ∀ (l acc : List Char), (∀ c ∈ acc, isPySpace c = false) →
      ∀ w ∈ pySplitAux l acc, w ≠ [] ∧ ∀ c ∈ w, isPySpace c = false := by
  intro l
  induction l with
  | nil =>
    intro acc hacc w hw
    rw [pySplitAux] at hw
    by_cases he : acc.isEmpty = true
    · rw [if_pos he] at hw
      simp at hw
    · rw [if_neg he] at hw
      simp only [List.mem_singleton] at hw
      subst hw
      refine ⟨?_, ?_⟩
      · intro hrev
        apply he
        rw [List.isEmpty_iff]
        exact List.reverse_eq_nil_iff.mp hrev
      · intro c hc
        exact hacc c (List.mem_reverse.mp hc)
  | cons ch cs ih =>
    intro acc hacc w hw
    rw [pySplitAux] at hw
    by_cases hsp : isPySpace ch = true
    · rw [if_pos hsp] at hw
      by_cases he : acc.isEmpty = true
      · rw [if_pos he] at hw
        exact ih [] (by simp) w hw
      · rw [if_neg he] at hw
        rcases List.mem_cons.mp hw with rfl | htail
        · refine ⟨?_, ?_⟩
          · intro hrev
            apply he
            rw [List.isEmpty_iff]
            exact List.reverse_eq_nil_iff.mp hrev
          · intro c hc
            exact hacc c (List.mem_reverse.mp hc)
        · exact ih [] (by simp) w htail
    · rw [if_neg hsp] at hw
      refine ih (ch :: acc) ?_ w hw
      intro c hc
      rcases List.mem_cons.mp hc with rfl | h2
      · exact Bool.eq_false_iff.mpr hsp
      · exact hacc c h2

lemma pySplitAux_subset :
    ∀ (l acc : List Char), ∀ w ∈ pySplitAux l acc, ∀ c ∈ w, c ∈ acc ∨ c ∈ l := by
  intro l
  induction l with
  | nil =>
    intro acc w hw c hc
    rw [pySplitAux] at hw
    by_cases he : acc.isEmpty = true
    · rw [if_pos he] at hw
      simp at hw
    · rw [if_neg he] at hw
      simp only [List.mem_singleton] at hw
      subst hw
      exact Or.inl (List.mem_reverse.mp hc)
  | cons ch cs ih =>
    intro acc w hw c hc
    rw [pySplitAux] at hw
    by_cases hsp : isPySpace ch = true
    · rw [if_pos hsp] at hw
      by_cases he : acc.isEmpty = true
      · rw [if_pos he] at hw
        rcases ih [] w hw c hc with h | h
        · simp at h
        · exact Or.inr (List.mem_cons_of_mem _ h)
      · rw [if_neg he] at hw
        rcases List.mem_cons.mp hw with rfl | htail
        · exact Or.inl (List.mem_reverse.mp hc)
        · rcases ih [] w htail c hc with h | h
          · simp at h
          · exact Or.inr (List.mem_cons_of_mem _ h)
    · rw [if_neg hsp] at hw
      rcases ih (ch :: acc) w hw c hc with h | h
      · rcases List.mem_cons.mp h with rfl | h2
        · exact Or.inr (List.mem_cons_self _ _)
        · exact Or.inl h2
      · exact Or.inr (List.mem_cons_of_mem _ h)

lemma mem_joinSpace (ws : List (List Char)) (c : Char) (h : c ∈ joinSpace ws) :
    c = ' ' ∨ ∃ w, w ∈ ws ∧ c ∈ w := by
  induction ws with
  | nil => simp [joinSpace] at h
  | cons w ws ih =>
    cases ws with
    | nil =>
      right
      exact ⟨w, List.mem_cons_self _ _, by simpa [joinSpace] using h⟩
    | cons w' ws' =>
      simp only [joinSpace] at h
      rcases List.mem_append.mp h with h1 | h2
      · exact Or.inr ⟨w, List.mem_cons_self _ _, h1⟩
      · rcases List.mem_cons.mp h2 with rfl | h3
        · exact Or.inl rfl
        · rcases ih h3 with h4 | ⟨w'', hw1, hw2⟩
          · exact Or.inl h4
          · exact Or.inr ⟨w'', List.mem_cons_of_mem _ hw1, hw2⟩

lemma joinSpace_ne_nil (w : List Char) (ws : List (List Char)) (h : w ≠ []) :
    joinSpace (w :: ws) ≠ [] := by
  cases ws with
  | nil => simpa [joinSpace] using h
  | cons w' ws' =>
    simp only [joinSpace]
    intro hc
    rcases List.append_eq_nil.mp hc with ⟨_, h2⟩
    exact absurd h2 (by simp)

lemma noTwoSpaces_of_all (l : List Char) (h : ∀ c ∈ l, isPySpace c = false) :
    noTwoSpaces l = true := by
  induction l with
  | nil => rfl
  | cons a l ih =>
    cases l with
    | nil => rfl
    | cons b l' =>
      rw [noTwoSpaces, Bool.and_eq_true]
      constructor
      · rw [h a (List.mem_cons_self _ _)]
        rfl
      · exact ih (fun c hc => h c (List.mem_cons_of_mem _ hc))

lemma getLast?_all_of_all (l : List Char) (h : ∀ c ∈ l, isPySpace c = false) :
    l.getLast?.all (fun c => !isPySpace c) = true := by
  cases hl : l.getLast? with
  | none => rfl
  | some a =>
    have ha := h a (List.mem_of_getLast?_eq_some hl)
    simp [ha]

lemma head?_all_of_all (l : List Char) (h : ∀ c ∈ l, isPySpace c = false) :
    l.head?.all (fun c => !isPySpace c) = true := by
  cases l with
  | nil => rfl
  | cons a l => simp [h a (List.mem_cons_self _ _)]

lemma noTwoSpaces_append :
    ∀ (xs ys : List Char), noTwoSpaces xs = true → noTwoSpaces ys = true →
      (∀ a b, xs.getLast? = some a → ys.head? = some b →
        (isPySpace a && isPySpace b) = false) →
      noTwoSpaces (xs ++ ys) = true := by
  intro xs
  induction xs with
  | nil =>
    intro ys _ hy _
    simpa using hy
  | cons a xs' ih =>
    intro ys hx hy hb
    cases xs' with
    | nil =>
      cases ys with
      | nil => simpa using hx
      | cons b ys' =>
        rw [List.cons_append, List.nil_append, noTwoSpaces, Bool.and_eq_true]
        constructor
        · rw [hb a b rfl rfl]
          rfl
        · exact hy
    | cons a' xs'' =>
      rw [List.cons_append, List.cons_append, noTwoSpaces, Bool.and_eq_true]
      rw [noTwoSpaces, Bool.and_eq_true] at hx
      refine ⟨hx.1, ?_⟩
      have hb2 : ∀ p q, (a' :: xs'').getLast? = some p → ys.head? = some q →
          (isPySpace p && isPySpace q) = false := by
        intro p q hp hq
        refine hb p q ?_ hq
        rw [List.getLast?_cons_cons]
        exact hp
      have hres := ih ys hx.2 hy hb2
      rw [List.cons_append] at hres
      exact hres

lemma noTwoSpaces_take :
    ∀ (l : List Char) (n : Nat), noTwoSpaces l = true → noTwoSpaces (l.take n) = true := by
  intro l
  induction l with
  | nil =>
    intro n h
    simpa using h
  | cons a l ih =>
    intro n h
    cases n with
    | zero => rfl
    | succ m =>
      rw [List.take_succ_cons]
      cases l with
      | nil =>
        rw [List.take_nil]
        rfl
      | cons b l' =>
        cases m with
        | zero => rfl
        | succ k =>
          rw [List.take_succ_cons]
          rw [noTwoSpaces, Bool.and_eq_true] at h ⊢
          refine ⟨h.1, ?_⟩
          have hres := ih (k + 1) h.2
          rw [List.take_succ_cons] at hres
          exact hres

lemma head?_take (n : Nat) (l : List Char) (hn : n ≠ 0) : (l.take n).head? = l.head? := by
  cases l with
  | nil => simp
  | cons a l =>
    cases n with
    | zero => exact absurd rfl hn
    | succ m => rfl

/-- All properties `joinSpace` guarantees for a list of non-empty,
whitespace-free words. -/
lemma joinSpace_good (ws : List (List Char))
    (hw : ∀ w ∈ ws, w ≠ [] ∧ ∀ c ∈ w, isPySpace c = false) :
    noTwoSpaces (joinSpace ws) = true ∧
    (joinSpace ws).head?.all (fun c => !isPySpace c) = true ∧
    (joinSpace ws).getLast?.all (fun c => !isPySpace c) = true := by
  induction ws with
  | nil => exact ⟨rfl, rfl, rfl⟩
  | cons w ws ih =>
    rcases hw w (List.mem_cons_self _ _) with ⟨hwne, hwns⟩
    cases ws with
    | nil =>
      refine ⟨?_, ?_, ?_⟩
      · exact noTwoSpaces_of_all w hwns
      · exact head?_all_of_all w hwns
      · exact getLast?_all_of_all w hwns
    | cons w' ws' =>
      have ihall := ih (fun v hv => hw v (List.mem_cons_of_mem _ hv))
      rcases ihall with ⟨ihN, ihH, ihL⟩
      have hJne : joinSpace (w' :: ws') ≠ [] :=
        joinSpace_ne_nil w' ws' (hw w' (List.mem_cons_of_mem _ (List.mem_cons_self _ _))).1
      have hgoal : joinSpace (w :: w' :: ws') = w ++ ' ' :: joinSpace (w' :: ws') := rfl
      rw [hgoal]
      refine ⟨?_, ?_, ?_⟩
      · refine noTwoSpaces_append w (' ' :: joinSpace (w' :: ws'))
          (noTwoSpaces_of_all w hwns) ?_ ?_
        · cases hJ : joinSpace (w' :: ws') with
          | nil => rfl
          | cons j js =>
            rw [noTwoSpaces, Bool.and_eq_true]
            constructor
            · have : (joinSpace (w' :: ws')).head?.all (fun c => !isPySpace c) = true := ihH
              rw [hJ] at this
              simp only [List.head?_cons, Option.all_some] at this
              simp [Bool.not_eq_true'] at this
              simp [this]
            · rw [← hJ]
              exact ihN
        · intro p q hp hq
          have hpw : p ∈ w := List.mem_of_getLast?_eq_some hp
          rw [hwns p hpw]
          rfl
      · rw [head?_append_left]
        · exact head?_all_of_all w hwns
        · exact hwne
      · rw [getLast?_append_right]
        · cases hJ : joinSpace (w' :: ws') with
          | nil => exact absurd hJ hJne
          | cons j js =>
            rw [List.getLast?_cons_cons]
            rw [hJ] at ihL
            exact ihL
        · simp

end VideoStrm

namespace VideoStrm

open TopAnimeStrm (isPySpace)

set_option maxRecDepth 4000 in
/-- Claim C10, counterexample: truncation to 200 characters can cut the
collapsed string right after a separating space, so the sanitized result of
a title made of a 199-character word, a space and another word ends in a
whitespace character (and the claim's "no trailing whitespace" fails). -/
theorem sanitize_filename_trailing_space :
    (_sanitize_filename (List.replicate 199 'a' ++ [' ', 'b'])).getLast? = some ' ' ∧
    isPySpace ' ' = true ∧
    (_sanitize_filename (List.replicate 199 'a' ++ [' ', 'b'])).length = 200 := by decide

/-- Claim C10, amended: for every title, `_sanitize_filename` returns a
string that contains none of the characters `<>:"/\|?*`, whose whitespace
consists only of single plain spaces, with no leading and no consecutive
whitespace, of length at most 200, and with no trailing whitespace unless
the 200-character truncation was applied; this sanitized string is the
descriptor filename whenever no code is supplied to `create_strm_file`. -/
theorem sanitize_filename_props (t : List Char) :
    (_sanitize_filename t).all (fun c => !forbiddenChars.contains c) = true ∧
    (_sanitize_filename t).length ≤ 200 ∧
    (_sanitize_filename t).all (fun c => !isPySpace c || c == ' ') = true ∧
    (_sanitize_filename t).head?.all (fun c => !isPySpace c) = true ∧
    noTwoSpaces (_sanitize_filename t) = true ∧
    ((_sanitize_filename t).getLast?.all (fun c => !isPySpace c) = true ∨
      200 < (joinSpace (pySplit (t.filter (fun c => !forbiddenChars.contains c)))).length) ∧
    strm_filename t none = _sanitize_filename t := by
  have hwords : ∀ w ∈ pySplit (t.filter (fun c => !forbiddenChars.contains c)),
      w ≠ [] ∧ ∀ c ∈ w, isPySpace c = false :=
    pySplitAux_words _ [] (by simp)
  have hJ := joinSpace_good (pySplit (t.filter (fun c => !forbiddenChars.contains c))) hwords
  have hmemJ : ∀ c ∈ joinSpace (pySplit (t.filter (fun c => !forbiddenChars.contains c))),
      c = ' ' ∨ forbiddenChars.contains c = false := by
    intro c hc
    rcases mem_joinSpace _ c hc with h | ⟨w, hw, hcw⟩
    · exact Or.inl h
    · right
      rcases pySplitAux_subset _ [] w hw c hcw with h2 | h2
      · simp at h2
      · have h3 := (List.mem_filter.mp h2).2
        simpa using h3
  have hspJ : ∀ c ∈ joinSpace (pySplit (t.filter (fun c => !forbiddenChars.contains c))),
      (!isPySpace c || c == ' ') = true := by
    intro c hc
    rcases mem_joinSpace _ c hc with h | ⟨w, hw, hcw⟩
    · subst h
      simp
    · have h2 := (hwords w hw).2 c hcw
      simp [h2]
  have hforb : ∀ c ∈ joinSpace (pySplit (t.filter (fun c => !forbiddenChars.contains c))),
      (!forbiddenChars.contains c) = true := by
    intro c hc
    rcases hmemJ c hc with rfl | h2
    · decide
    · simpa using h2
  by_cases hlen : 200 <
      (joinSpace (pySplit (t.filter (fun c => !forbiddenChars.contains c)))).length
  · have hres : _sanitize_filename t =
        (joinSpace (pySplit (t.filter (fun c => !forbiddenChars.contains c)))).take 200 := by
      simp only [_sanitize_filename]
      rw [if_pos hlen]
    rw [hres]
    refine ⟨?_, ?_, ?_, ?_, ?_, ?_, ?_⟩
    · rw [List.all_eq_true]
      intro c hc
      exact hforb c (List.take_subset _ _ hc)
    · rw [List.length_take]
      exact Nat.min_le_left _ _
    · rw [List.all_eq_true]
      intro c hc
      exact hspJ c (List.take_subset _ _ hc)
    · rw [head?_take 200 _ (by omega)]
      exact hJ.2.1
    · exact noTwoSpaces_take _ 200 hJ.1
    · exact Or.inr hlen
    · exact hres
  · have hres : _sanitize_filename t =
        joinSpace (pySplit (t.filter (fun c => !forbiddenChars.contains c))) := by
      simp only [_sanitize_filename]
      rw [if_neg hlen]
    rw [hres]
    refine ⟨?_, ?_, ?_, ?_, ?_, ?_, ?_⟩
    · rw [List.all_eq_true]
      intro c hc
      exact hforb c hc
    · omega
    · rw [List.all_eq_true]
      intro c hc
      exact hspJ c hc
    · exact hJ.2.1
    · exact hJ.1
    · exact Or.inl hJ.2.2
    · exact hres

end VideoStrm
